import Mathlib

/-!
Shallow embedding of `src/kg.py`, the HEAL CDE knowledge-graph builder.

The script reads a CSV into a list of rows of six stringified cells, counts
cell values globally (line 100-102), then builds a pyvis graph: one node per
previously unseen label (measure nodes frequency-scaled, all others fixed
size), and per row, edges from the measure to every per-category token and
between tokens of different categories (lines 107-129).  The global `net`
object and the `added_nodes` set are modelled by explicit state passing of a
`KG` record; sizes are modelled as rationals.
-/

/-- The six column categories of the input table. -/
inductive Category where
  | CoreCDEMeasures
  | Domain
  | Questionnaire
  | HEALResearchProgram
  | StudyName
  | PIName
  deriving DecidableEq, Repr

/-- One row of the CSV: one string cell per category (`astype(str)` makes every
cell a string; a missing cell is the literal string "nan"). -/
structure Row where
  coreCDEMeasures : String
  domain : String
  questionnaire : String
  studyName : String
  piName : String
  healResearchProgram : String
  deriving DecidableEq, Repr

/-- Access a row's cell by category name, as `entry[columns.get_loc(key)]` does. -/
def Row.field (r : Row) : Category → String
  | .CoreCDEMeasures => r.coreCDEMeasures
  | .Domain => r.domain
  | .Questionnaire => r.questionnaire
  | .HEALResearchProgram => r.healResearchProgram
  | .StudyName => r.studyName
  | .PIName => r.piName

/-- All six cells of a row in CSV column order (the order is irrelevant to the
global counter). -/
def Row.cells (r : Row) : List String :=
  [r.coreCDEMeasures, r.domain, r.questionnaire, r.studyName, r.piName,
    r.healResearchProgram]

/-- A pyvis node as added by `net.add_node`: its label, the category whose
color and shape styled it, and its size. -/
structure Node where
  label : String
  category : Category
  size : ℚ
  deriving DecidableEq, Repr

/-- The state of the global `net` object together with the `added_nodes` set
(kept as the list of labels in insertion order). -/
structure KG where
  nodes : List Node
  edges : List (String × String)
  addedNodes : List String
  deriving DecidableEq, Repr

/-- The `color_map` dict (src/kg.py lines 17-24). -/
def color_map : Category → String
  | .CoreCDEMeasures => "#4b0082"
  | .Domain => "#dda0dd"
  | .Questionnaire => "#ff1493"
  | .StudyName => "#1f77b4"
  | .PIName => "#2ca02c"
  | .HEALResearchProgram => "#ffb6c1"

/-- The `shape_map` dict (src/kg.py lines 26-33). -/
def shape_map : Category → String
  | .CoreCDEMeasures => "dot"
  | .Domain => "ellipse"
  | .Questionnaire => "square"
  | .HEALResearchProgram => "triangle"
  | .StudyName => "text"
  | .PIName => "text"

/-- Python `s.split(',')` on a character list: split at every comma, keeping
empty pieces. -/
def splitOnComma : List Char → List (List Char)
  | [] => [[]]
  | c :: cs =>
      if c = ',' then [] :: splitOnComma cs
      else
        match splitOnComma cs with
        | [] => [[c]]
        | t :: ts => (c :: t) :: ts

/-- Python `str.strip()` on a character list: drop whitespace from both ends. -/
def stripChars (l : List Char) : List Char :=
  ((l.dropWhile Char.isWhitespace).reverse.dropWhile Char.isWhitespace).reverse

/-- `", ".join` on character lists (used only to state the round-trip
property of the tokenisation). -/
def joinCommaChars : List (List Char) → List Char
  | [] => []
  | [t] => t
  | t :: ts => t ++ ',' :: ' ' :: joinCommaChars ts

/-- `entries.split(',')` at the `String` level. -/
def pySplit (s : String) : List String :=
  (splitOnComma s.data).map String.mk

/-- `item.strip()` at the `String` level. -/
def pyStrip (s : String) : String :=
  String.mk (stripChars s.data)

/-- Rejoining a token list with `", "` at the `String` level. -/
def pyJoinComma (ts : List String) : String :=
  String.mk (joinCommaChars (ts.map String.data))

/-- Line 100: every cell of every row, with the missing markers filtered out. -/
def all_descriptors (data : List Row) : List String :=
  data.flatMap (fun entry => entry.cells.filter (fun d => !(d == "nan" || d == "")))

/-- Line 101: the `Counter` — number of occurrences of a label among all kept
cells of the whole dataset. -/
def descriptor_frequency (data : List Row) (label : String) : ℕ :=
  (all_descriptors data).count label

/-- Line 102: `max(descriptor_frequency.values())`; `none` models the
`ValueError` Python raises on an empty counter. -/
def max_frequency (data : List Row) : Option ℕ :=
  ((all_descriptors data).map (descriptor_frequency data)).max?

/-- Lines 184-192, the body of the `for item in items` loop of
`process_entries`: strip the token; a new non-empty token becomes a fixed-size
node and is recorded; a known non-empty token is only recorded. -/
def pe_step (entry_type : Category) (acc : KG × List String) (item0 : String) :
    KG × List String :=
  let item := pyStrip item0
  if item ≠ "" ∧ item ∉ acc.1.addedNodes then
    ({ acc.1 with
        nodes := acc.1.nodes ++ [⟨item, entry_type, 15⟩],
        addedNodes := acc.1.addedNodes ++ [item] },
      acc.2 ++ [item])
  else if item ≠ "" then (acc.1, acc.2 ++ [item])
  else acc

/-- Lines 180-193 (`process_entries`): split one comma-packed field, strip each
token, add a fixed-size node for each new non-empty token, and return the
row's token list for this category. -/
def process_entries (entries : String) (entry_type : Category) (g : KG) :
    KG × List String :=
  if entries = "nan" ∨ entries = "" then (g, [])
  else (pySplit entries).foldl (pe_step entry_type) (g, [])

/-- Line 117: the five non-measure categories, in iteration order. -/
def otherCategories : List Category :=
  [.Domain, .Questionnaire, .HEALResearchProgram, .StudyName, .PIName]

/-- Lines 121-129: the edges emitted for one row, in emission order — the
measure cell is linked to every per-category token, and every token to every
token of a different category (both orientations arise from the loop). -/
def row_edges (core_cde_measure : String)
    (entries_dict : List (Category × List String)) : List (String × String) :=
  entries_dict.flatMap fun kn =>
    kn.2.flatMap fun node =>
      (core_cde_measure, node) ::
        entries_dict.flatMap fun okn =>
          if okn.1 ≠ kn.1 then okn.2.map (fun other => (node, other)) else []

/-- Lines 116-119, the body of the `for key in [...]` loop: process one
non-measure category of the row and record its token list in `entries_dict`. -/
def row_cat_step (entry : Row) (acc : KG × List (Category × List String))
    (key : Category) : KG × List (Category × List String) :=
  let r := process_entries (entry.field key) key acc.1
  (r.1, acc.2 ++ [(key, r.2)])

/-- Lines 107-129: one iteration of the `for entry in data` loop. -/
def process_row (freq : String → ℕ) (maxFreq : ℕ) (g : KG) (entry : Row) : KG :=
  let core := entry.coreCDEMeasures
  let g1 :=
    if ¬(core = "nan" ∨ core = "") ∧ core ∉ g.addedNodes then
      { g with
          nodes := g.nodes ++
            [⟨core, .CoreCDEMeasures, 30 * ((freq core : ℚ) / (maxFreq : ℚ))⟩],
          addedNodes := g.addedNodes ++ [core] }
    else g
  let step := otherCategories.foldl (row_cat_step entry)
      (g1, ([] : List (Category × List String)))
  { step.1 with edges := step.1.edges ++ row_edges core step.2 }

/-- Lines 99-129 (graph construction part of `create_knowledge_graph`): build
the whole graph, or fail the way Python's `max()` does when every cell of the
dataset is a missing marker. -/
def create_knowledge_graph (data : List Row) : Except String KG :=
  match max_frequency data with
  | none => .error "max() arg is an empty sequence"
  | some m =>
      .ok (data.foldl (process_row (descriptor_frequency data) m) ⟨[], [], []⟩)

/-- The graph a successful run builds (the empty graph when the build fails). -/
def graph_of (data : List Row) : KG :=
  match create_knowledge_graph data with
  | .ok g => g
  | .error _ => ⟨[], [], []⟩

/-- An undirected edge query on the emitted edge list. -/
def KG.hasEdge (g : KG) (a b : String) : Prop :=
  (a, b) ∈ g.edges ∨ (b, a) ∈ g.edges

instance (g : KG) (a b : String) : Decidable (g.hasEdge a b) :=
  decidable_of_iff ((a, b) ∈ g.edges ∨ (b, a) ∈ g.edges) Iff.rfl

/-- Outcome of reading the rendered `knowledge_graph.html` back from disk.
Modelled from the spec: the file read is a file-system effect outside the
embedded fragment, so its outcome is abstracted as an input; the three cases
correspond to a successful read, `FileNotFoundError`, and any other
exception. -/
inductive ReadOutcome where
  | ok (html : String)
  | fileNotFound
  | otherFailure (msg : String)
  deriving DecidableEq, Repr

/-- One rendered section of the Streamlit page below the graph build. -/
inductive Rendered where
  | htmlComponent (content : String)
  | warning (msg : String)
  | errorMsg (msg : String)
  | filterHelp
  | guideTables
  deriving DecidableEq, Repr

/-- Lines 202-212: the `try/except` dispatch around displaying the rendered
artifact — embed the HTML on success, warn on a missing file, report a generic
display error on any other exception. -/
def display_graph_section : ReadOutcome → Rendered
  | .ok html => .htmlComponent html
  | .fileNotFound => .warning "HTML file not found at knowledge_graph.html."
  | .otherFailure e =>
      .errorMsg ("An error occurred while reading the HTML file: " ++ e)

/-- Lines 202-286: the page sections from the display attempt onwards — the
graph display attempt (made exactly once), then the filtering help text and
the guide tables, which are emitted unconditionally. -/
def page_after_build (r : ReadOutcome) : List Rendered :=
  [display_graph_section r, .filterHelp, .guideTables]

/-- The master structural invariant of the builder state: `added_nodes` is
exactly the set of node labels (in insertion order), labels are pairwise
distinct, every measure node carries the frequency-scaled size `f label`, and
every non-measure node carries the fixed size 15. -/
def InvKG (f : String → ℚ) (g : KG) : Prop :=
  g.addedNodes = g.nodes.map Node.label ∧
  (g.nodes.map Node.label).Nodup ∧
  (∀ n ∈ g.nodes, n.category = Category.CoreCDEMeasures → n.size = f n.label) ∧
  (∀ n ∈ g.nodes, n.category ≠ Category.CoreCDEMeasures → n.size = 15)

/-- Witness dataset: a single row carrying only the measure "M". -/
def dataW1 : List Row := [⟨"M", "nan", "nan", "nan", "nan", "nan"⟩]

/-- The measure node the builder adds for `dataW1`. -/
def nodeW1 : Node :=
  ⟨"M", .CoreCDEMeasures,
    30 * ((descriptor_frequency dataW1 "M" : ℚ) / ((1 : ℕ) : ℚ))⟩

/-- Witness dataset: a single row with a missing measure and one Domain token. -/
def dataW7 : List Row := [⟨"nan", "D", "nan", "nan", "nan", "nan"⟩]

/-- The Domain node the builder adds for `dataW7`. -/
def nodeW7 : Node := ⟨"D", .Domain, 15⟩

/-- Witness dataset: every cell of the single row is a missing marker. -/
def dataW6 : List Row := [⟨"nan", "nan", "nan", "nan", "nan", "nan"⟩]

/-- The C3 test row: measure "M", Domain "D1, D2", Questionnaire "Q",
everything else missing. -/
def dataC3 : List Row := [⟨"M", "D1, D2", "Q", "nan", "nan", "nan"⟩]

/-- The C4 failing input: a row with a missing measure but a Domain value. -/
def dataC4 : List Row := [⟨"nan", "D", "nan", "nan", "nan", "nan"⟩]

/-- The C5 counterexample input: a literal "nan" token packed inside the
comma-separated Domain field. -/
def dataC5 : List Row := [⟨"M", "D1, nan", "nan", "nan", "nan", "nan"⟩]

/-- Witness dataset for the amended C5: ordinary tokens only. -/
def dataW5 : List Row := [⟨"nan", "D", "nan", "nan", "nan", "nan"⟩]

/-- Witness entries dictionary for C10: one Domain token and one
Questionnaire token. -/
def dictW10 : List (Category × List String) :=
  [(.Domain, ["D"]), (.Questionnaire, ["Q"])]

/-! ### Structural invariant of the builder state -/

theorem InvKG_empty (f : String → ℚ) : InvKG f ⟨[], [], []⟩ :=
  ⟨rfl, List.nodup_nil, by simp, by simp⟩

theorem pe_step_inv {f : String → ℚ} {t : Category}
    (ht : t ≠ Category.CoreCDEMeasures) (acc : KG × List String)
    (item0 : String) (h : InvKG f acc.1) : InvKG f (pe_step t acc item0).1 := by
  obtain ⟨h1, h2, h3, h4⟩ := h
  simp only [pe_step]
  split
  · rename_i hc
    refine ⟨?_, ?_, ?_, ?_⟩
    · simp [h1]
    · simp only [List.map_append, List.map_cons, List.map_nil]
      rw [List.nodup_append]
      refine ⟨h2, List.nodup_singleton _, ?_⟩
      intro x hx hx1
      simp only [List.mem_singleton] at hx1
      subst hx1
      exact hc.2 (h1 ▸ hx)
    · intro n hn hcat
      rcases List.mem_append.mp hn with hn | hn
      · exact h3 n hn hcat
      · simp only [List.mem_singleton] at hn
        subst hn
        exact absurd hcat ht
    · intro n hn _
      rcases List.mem_append.mp hn with hn | hn
      · exact h4 n hn (by assumption)
      · simp only [List.mem_singleton] at hn
        subst hn
        rfl
  · split
    · exact ⟨h1, h2, h3, h4⟩
    · exact ⟨h1, h2, h3, h4⟩

theorem pe_fold_inv {f : String → ℚ} {t : Category}
    (ht : t ≠ Category.CoreCDEMeasures) :
    ∀ (l : List String) (acc : KG × List String), InvKG f acc.1 →
      InvKG f ((l.foldl (pe_step t) acc)).1 := by
  intro l
  induction l with
  | nil => intro acc h; exact h
  | cons i l ih => intro acc h; exact ih _ (pe_step_inv ht acc i h)

theorem process_entries_inv {f : String → ℚ} {t : Category}
    (ht : t ≠ Category.CoreCDEMeasures) (e : String) (g : KG)
    (h : InvKG f g) : InvKG f (process_entries e t g).1 := by
  unfold process_entries
  split
  · exact h
  · exact pe_fold_inv ht _ _ h

theorem cat_fold_inv {f : String → ℚ} (entry : Row) :
    ∀ (keys : List Category), (∀ k ∈ keys, k ≠ Category.CoreCDEMeasures) →
      ∀ (acc : KG × List (Category × List String)), InvKG f acc.1 →
        InvKG f ((keys.foldl (row_cat_step entry) acc)).1 := by
  intro keys
  induction keys with
  | nil => intro _ acc h; exact h
  | cons k keys ih =>
      intro hk acc h
      refine ih (fun x hx => hk x (List.mem_cons_of_mem _ hx)) _ ?_
      exact process_entries_inv (hk k (List.mem_cons_self k keys)) _ _ h

theorem process_row_inv (freq : String → ℕ) (m : ℕ) (g : KG) (entry : Row)
    (h : InvKG (fun l => 30 * ((freq l : ℚ) / (m : ℚ))) g) :
    InvKG (fun l => 30 * ((freq l : ℚ) / (m : ℚ))) (process_row freq m g entry) := by
  obtain ⟨h1, h2, h3, h4⟩ := h
  simp only [process_row]
  have hg1 : InvKG (fun l => 30 * ((freq l : ℚ) / (m : ℚ)))
      (if ¬(entry.coreCDEMeasures = "nan" ∨ entry.coreCDEMeasures = "") ∧
          entry.coreCDEMeasures ∉ g.addedNodes then
        { g with
            nodes := g.nodes ++
              [⟨entry.coreCDEMeasures, .CoreCDEMeasures,
                30 * ((freq entry.coreCDEMeasures : ℚ) / (m : ℚ))⟩],
            addedNodes := g.addedNodes ++ [entry.coreCDEMeasures] }
      else g) := by
    split
    · rename_i hc
      refine ⟨?_, ?_, ?_, ?_⟩
      · simp [h1]
      · simp only [List.map_append, List.map_cons, List.map_nil]
        rw [List.nodup_append]
        refine ⟨h2, List.nodup_singleton _, ?_⟩
        intro x hx hx1
        simp only [List.mem_singleton] at hx1
        subst hx1
        exact hc.2 (h1 ▸ hx)
      · intro n hn hcat
        rcases List.mem_append.mp hn with hn | hn
        · exact h3 n hn hcat
        · simp only [List.mem_singleton] at hn
          subst hn
          rfl
      · intro n hn hcat
        rcases List.mem_append.mp hn with hn | hn
        · exact h4 n hn hcat
        · simp only [List.mem_singleton] at hn
          subst hn
          exact absurd rfl hcat
    · exact ⟨h1, h2, h3, h4⟩
  exact cat_fold_inv entry otherCategories (by decide) _ hg1

theorem data_fold_inv (freq : String → ℕ) (m : ℕ) :
    ∀ (rows : List Row) (g : KG),
      InvKG (fun l => 30 * ((freq l : ℚ) / (m : ℚ))) g →
      InvKG (fun l => 30 * ((freq l : ℚ) / (m : ℚ)))
        (rows.foldl (process_row freq m) g) := by
  intro rows
  induction rows with
  | nil => intro g h; exact h
  | cons r rows ih => intro g h; exact ih _ (process_row_inv freq m g r h)

theorem create_ok_of_max (data : List Row) (m : ℕ)
    (h : max_frequency data = some m) :
    create_knowledge_graph data =
      .ok (data.foldl (process_row (descriptor_frequency data) m) ⟨[], [], []⟩) := by
  unfold create_knowledge_graph
  rw [h]

theorem graph_of_max (data : List Row) (m : ℕ)
    (h : max_frequency data = some m) :
    graph_of data =
      data.foldl (process_row (descriptor_frequency data) m) ⟨[], [], []⟩ := by
  unfold graph_of
  rw [create_ok_of_max data m h]

theorem graph_of_none (data : List Row) (h : max_frequency data = none) :
    graph_of data = ⟨[], [], []⟩ := by
  unfold graph_of create_knowledge_graph
  rw [h]

theorem graph_of_inv (data : List Row) (m : ℕ)
    (h : max_frequency data = some m) :
    InvKG (fun l => 30 * ((descriptor_frequency data l : ℚ) / (m : ℚ)))
      (graph_of data) := by
  rw [graph_of_max data m h]
  exact data_fold_inv _ m data _ (InvKG_empty _)

/-! ### Claim theorems: sizes, deduplication, per-row edges, failure mode -/

/-- C1: every Core CDE Measure node added to the graph has size
`30 * frequency(label) / max_frequency`, where the frequency of a label is its
global number of occurrences among the kept cells of all rows and all
categories combined — not scoped to the Core CDE Measure column. -/
theorem C1_measure_node_size (data : List Row) (m : ℕ)
    (h : max_frequency data = some m) :
    ∀ n ∈ (graph_of data).nodes, n.category = Category.CoreCDEMeasures →
      n.size = 30 * ((descriptor_frequency data n.label : ℚ) / (m : ℚ)) :=
  (graph_of_inv data m h).2.2.1

theorem C1_measure_node_size_witness :
    max_frequency dataW1 = some 1 ∧
    nodeW1 ∈ (graph_of dataW1).nodes ∧
    nodeW1.category = Category.CoreCDEMeasures ∧
    nodeW1.size =
      30 * ((descriptor_frequency dataW1 nodeW1.label : ℚ) / ((1 : ℕ) : ℚ)) := by
  have hmax : max_frequency dataW1 = some 1 := by decide
  have hnodes : (graph_of dataW1).nodes = [nodeW1] := rfl
  have hmem : nodeW1 ∈ (graph_of dataW1).nodes := by
    rw [hnodes]; exact List.mem_singleton_self _
  exact ⟨hmax, hmem, rfl, C1_measure_node_size dataW1 1 hmax nodeW1 hmem rfl⟩

/-- C2: over the whole run, a node with a given label is added at most once —
the final node list has pairwise distinct labels, for every input dataset. -/
theorem C2_node_labels_nodup (data : List Row) :
    ((graph_of data).nodes.map Node.label).Nodup := by
  cases h : max_frequency data with
  | none => rw [graph_of_none data h]; exact List.nodup_nil
  | some m => exact (graph_of_inv data m h).2.1

/-- C3: for the row (measure "M", Domain "D1, D2", Questionnaire "Q", rest
missing) the graph has edges M–D1, M–D2, M–Q, D1–Q, D2–Q and no edge D1–D2:
values of the same category are never connected within a row. -/
theorem C3_cross_category_edges :
    (graph_of dataC3).hasEdge "M" "D1" ∧ (graph_of dataC3).hasEdge "M" "D2" ∧
    (graph_of dataC3).hasEdge "M" "Q" ∧ (graph_of dataC3).hasEdge "D1" "Q" ∧
    (graph_of dataC3).hasEdge "D2" "Q" ∧
    ¬(graph_of dataC3).hasEdge "D1" "D2" := by decide

/-- C4, evaluation of the code at the failing input: for a row whose measure
cell is "nan" with Domain "D", no measure node is created and the Domain node
is created, but — contrary to the claim — the edge ("nan", "D") is still
emitted, because line 124 links `core_cde_measure` unconditionally. -/
theorem C4_missing_measure_still_linked :
    "nan" ∉ (graph_of dataC4).nodes.map Node.label ∧
    "D" ∈ (graph_of dataC4).nodes.map Node.label ∧
    ("nan", "D") ∈ (graph_of dataC4).edges := by decide

/-- C5, counterexample: a literal "nan" token packed inside the comma-separated
Domain field "D1, nan" is not filtered and becomes a node labelled "nan". -/
theorem C5_nan_token_becomes_node :
    "nan" ∈ (graph_of dataC5).nodes.map Node.label := by decide

/-- C6: when every cell of every row is a missing marker, the builder stops
with the `max()`-on-empty error before any division by the maximum frequency
can be attempted. -/
theorem C6_all_missing_fails (data : List Row)
    (h : ∀ r ∈ data, ∀ c ∈ r.cells, c = "nan" ∨ c = "") :
    create_knowledge_graph data = .error "max() arg is an empty sequence" := by
  have hdesc : all_descriptors data = [] := by
    unfold all_descriptors
    rw [List.flatMap_eq_nil_iff]
    intro r hr
    rw [List.filter_eq_nil_iff]
    intro c hc
    rcases h r hr c hc with h1 | h1 <;> simp [h1]
  have hmax : max_frequency data = none := by
    unfold max_frequency
    rw [hdesc]
    rfl
  unfold create_knowledge_graph
  rw [hmax]

theorem C6_all_missing_fails_witness :
    (∀ r ∈ dataW6, ∀ c ∈ r.cells, c = "nan" ∨ c = "") ∧
    create_knowledge_graph dataW6 = .error "max() arg is an empty sequence" :=
  ⟨by decide, C6_all_missing_fails dataW6 (by decide)⟩

/-- C7: every node whose category is not Core CDE Measures has the fixed size
15, whatever its frequency in the dataset. -/
theorem C7_non_measure_fixed_size (data : List Row) :
    ∀ n ∈ (graph_of data).nodes, n.category ≠ Category.CoreCDEMeasures →
      n.size = 15 := by
  cases h : max_frequency data with
  | none =>
      rw [graph_of_none data h]
      intro n hn
      simp at hn
  | some m => exact (graph_of_inv data m h).2.2.2

theorem C7_non_measure_fixed_size_witness :
    nodeW7 ∈ (graph_of dataW7).nodes ∧
    nodeW7.category ≠ Category.CoreCDEMeasures ∧ nodeW7.size = 15 := by
  have hmem : nodeW7 ∈ (graph_of dataW7).nodes := by decide
  exact ⟨hmem, by decide,
    C7_non_measure_fixed_size dataW7 nodeW7 hmem (by decide)⟩

/-! ### Display error handling -/

/-- C9: when the rendered artifact is missing, the display step yields exactly
one warning and no embedded HTML; on any other read failure it yields exactly
one generic display error; in both cases the remaining page sections (the
filtering help and the guide tables) are still rendered, with no retry and no
abort. -/
theorem C9_display_error_handling :
    page_after_build ReadOutcome.fileNotFound =
      [Rendered.warning "HTML file not found at knowledge_graph.html.",
        Rendered.filterHelp, Rendered.guideTables] ∧
    ∀ e, page_after_build (ReadOutcome.otherFailure e) =
      [Rendered.errorMsg ("An error occurred while reading the HTML file: " ++ e),
        Rendered.filterHelp, Rendered.guideTables] :=
  ⟨rfl, fun _ => rfl⟩

/-! ### Provenance of node labels -/

theorem pe_step_nodes (t : Category) (acc : KG × List String) (item0 : String) :
    ∀ n ∈ (pe_step t acc item0).1.nodes,
      n ∈ acc.1.nodes ∨ (n.label = pyStrip item0 ∧ pyStrip item0 ≠ "") := by
  intro n hn
  simp only [pe_step] at hn
  split at hn
  · rename_i hc
    rcases List.mem_append.mp hn with h | h
    · exact Or.inl h
    · simp only [List.mem_singleton] at h
      subst h
      exact Or.inr ⟨rfl, hc.1⟩
  · split at hn
    · exact Or.inl hn
    · exact Or.inl hn

theorem pe_fold_nodes (t : Category) :
    ∀ (l : List String) (acc : KG × List String) (n : Node),
      n ∈ ((l.foldl (pe_step t) acc)).1.nodes →
      n ∈ acc.1.nodes ∨ ∃ it ∈ l, n.label = pyStrip it ∧ pyStrip it ≠ "" := by
  intro l
  induction l with
  | nil => intro acc n hn; exact Or.inl hn
  | cons i l ih =>
      intro acc n hn
      rcases ih _ n hn with h | ⟨it, hit, h⟩
      · rcases pe_step_nodes t acc i n h with h | h
        · exact Or.inl h
        · exact Or.inr ⟨i, List.mem_cons_self _ _, h⟩
      · exact Or.inr ⟨it, List.mem_cons_of_mem _ hit, h⟩

theorem process_entries_nodes (e : String) (t : Category) (g : KG) :
    ∀ n ∈ (process_entries e t g).1.nodes,
      n ∈ g.nodes ∨ (¬(e = "nan" ∨ e = "") ∧
        ∃ it ∈ pySplit e, n.label = pyStrip it ∧ pyStrip it ≠ "") := by
  intro n hn
  unfold process_entries at hn
  split at hn
  · exact Or.inl hn
  · rename_i he
    rcases pe_fold_nodes t _ _ n hn with h | h
    · exact Or.inl h
    · exact Or.inr ⟨he, h⟩

theorem cat_fold_nodes (entry : Row) :
    ∀ (keys : List Category) (acc : KG × List (Category × List String)) (n : Node),
      n ∈ ((keys.foldl (row_cat_step entry) acc)).1.nodes →
      n ∈ acc.1.nodes ∨ ∃ k ∈ keys, ¬(entry.field k = "nan" ∨ entry.field k = "") ∧
        ∃ it ∈ pySplit (entry.field k), n.label = pyStrip it ∧ pyStrip it ≠ "" := by
  intro keys
  induction keys with
  | nil => intro acc n hn; exact Or.inl hn
  | cons k keys ih =>
      intro acc n hn
      rcases ih _ n hn with h | ⟨k2, hk2, hrest⟩
      · have h2 := process_entries_nodes (entry.field k) k acc.1 n
          (by simpa [row_cat_step] using h)
        rcases h2 with h2 | ⟨hne, hex⟩
        · exact Or.inl h2
        · exact Or.inr ⟨k, List.mem_cons_self _ _, hne, hex⟩
      · exact Or.inr ⟨k2, List.mem_cons_of_mem _ hk2, hrest⟩

theorem process_row_nodes (freq : String → ℕ) (m : ℕ) (g : KG) (entry : Row) :
    ∀ n ∈ (process_row freq m g entry).nodes,
      n ∈ g.nodes ∨
      (n.label = entry.coreCDEMeasures ∧
        ¬(entry.coreCDEMeasures = "nan" ∨ entry.coreCDEMeasures = "")) ∨
      ∃ k ∈ otherCategories, ¬(entry.field k = "nan" ∨ entry.field k = "") ∧
        ∃ it ∈ pySplit (entry.field k), n.label = pyStrip it ∧ pyStrip it ≠ "" := by
  intro n hn
  simp only [process_row] at hn
  rcases cat_fold_nodes entry otherCategories _ n hn with h | h
  · by_cases hc : ¬(entry.coreCDEMeasures = "nan" ∨ entry.coreCDEMeasures = "") ∧
        entry.coreCDEMeasures ∉ g.addedNodes
    · rw [if_pos hc] at h
      rcases List.mem_append.mp h with h | h
      · exact Or.inl h
      · simp only [List.mem_singleton] at h
        subst h
        exact Or.inr (Or.inl ⟨rfl, hc.1⟩)
    · rw [if_neg hc] at h
      exact Or.inl h
  · exact Or.inr (Or.inr h)

theorem rows_fold_nodes (freq : String → ℕ) (m : ℕ) :
    ∀ (rows : List Row) (g : KG) (n : Node),
      n ∈ ((rows.foldl (process_row freq m) g)).nodes →
      n ∈ g.nodes ∨ ∃ r ∈ rows,
        (n.label = r.coreCDEMeasures ∧
          ¬(r.coreCDEMeasures = "nan" ∨ r.coreCDEMeasures = "")) ∨
        ∃ k ∈ otherCategories, ¬(r.field k = "nan" ∨ r.field k = "") ∧
          ∃ it ∈ pySplit (r.field k), n.label = pyStrip it ∧ pyStrip it ≠ "" := by
  intro rows
  induction rows with
  | nil => intro g n hn; exact Or.inl hn
  | cons r rows ih =>
      intro g n hn
      rcases ih _ n hn with h | ⟨r2, hr2, hrest⟩
      · rcases process_row_nodes freq m g r n h with h | h
        · exact Or.inl h
        · exact Or.inr ⟨r, List.mem_cons_self _ _, h⟩
      · exact Or.inr ⟨r2, List.mem_cons_of_mem _ hr2, hrest⟩

/-- C5, amended: whole-cell missing markers never create nodes — no node label
is ever the empty string, and as long as no non-missing comma-packed cell
contains a token that strips to the literal "nan", no node is labelled "nan"
either.  (The unamended claim fails: a literal "nan" token inside a
comma-packed field does become a node — see the counterexample.) -/
theorem C5_no_missing_marker_nodes (data : List Row)
    (h : ∀ r ∈ data, ∀ k ∈ otherCategories,
      ¬(r.field k = "nan" ∨ r.field k = "") →
      ∀ it ∈ pySplit (r.field k), pyStrip it ≠ "nan") :
    ∀ n ∈ (graph_of data).nodes, n.label ≠ "nan" ∧ n.label ≠ "" := by
  intro n hn
  cases hm : max_frequency data with
  | none =>
      rw [graph_of_none data hm] at hn
      simp at hn
  | some m =>
      rw [graph_of_max data m hm] at hn
      rcases rows_fold_nodes _ m data _ n hn with h0 | ⟨r, hr, hcase⟩
      · simp at h0
      · rcases hcase with ⟨hl, hc⟩ | ⟨k, hk, hne, it, hit, hl, hemp⟩
        · constructor
          · intro hb
            exact hc (Or.inl (by rw [← hl]; exact hb))
          · intro hb
            exact hc (Or.inr (by rw [← hl]; exact hb))
        · constructor
          · rw [hl]
            exact h r hr k hk hne it hit
          · rw [hl]
            exact hemp

theorem C5_no_missing_marker_nodes_witness :
    (∀ r ∈ dataW5, ∀ k ∈ otherCategories,
      ¬(r.field k = "nan" ∨ r.field k = "") →
      ∀ it ∈ pySplit (r.field k), pyStrip it ≠ "nan") ∧
    nodeW7 ∈ (graph_of dataW5).nodes ∧
    nodeW7.label ≠ "nan" ∧ nodeW7.label ≠ "" := by
  have hH : ∀ r ∈ dataW5, ∀ k ∈ otherCategories,
      ¬(r.field k = "nan" ∨ r.field k = "") →
      ∀ it ∈ pySplit (r.field k), pyStrip it ≠ "nan" := by decide
  have hmem : nodeW7 ∈ (graph_of dataW5).nodes := by decide
  exact ⟨hH, hmem, C5_no_missing_marker_nodes dataW5 hH nodeW7 hmem⟩

/-! ### Counting the per-row edge emissions -/

theorem sum_map_single {α : Type} :
    ∀ (d : List α), d.Nodup → ∀ (x : α), x ∈ d → ∀ (f : α → ℕ),
      (∀ p ∈ d, p ≠ x → f p = 0) → (d.map f).sum = f x := by
  intro d
  induction d with
  | nil =>
      intro _ x hx
      simp at hx
  | cons p d ih =>
      intro hnd x hx f h0
      simp only [List.map_cons, List.sum_cons]
      rcases List.mem_cons.mp hx with hx | hx
      · subst hx
        have hz : (d.map f).sum = 0 := by
          apply List.sum_eq_zero
          intro v hv
          rcases List.mem_map.mp hv with ⟨q, hq, hqv⟩
          rw [← hqv]
          apply h0 q (List.mem_cons_of_mem _ hq)
          intro hqx
          subst hqx
          exact (List.nodup_cons.mp hnd).1 hq
        rw [hz, Nat.add_zero]
      · have hpx : p ≠ x := by
          intro he
          subst he
          exact (List.nodup_cons.mp hnd).1 hx
        rw [h0 p (List.mem_cons_self _ _) hpx,
          ih (List.nodup_cons.mp hnd).2 x hx f
            (fun q hq hqx => h0 q (List.mem_cons_of_mem _ hq) hqx),
          Nat.zero_add]

theorem count_pair_map (node x y : String) (l : List String) :
    (l.map (fun other => (node, other))).count (x, y) =
      if node = x then l.count y else 0 := by
  induction l with
  | nil => simp
  | cons o l ih =>
      rw [List.map_cons, List.count_cons, List.count_cons, ih]
      by_cases hnx : node = x
      · subst hnx
        by_cases hoy : o = y
        · subst hoy
          simp
        · simp [hoy]
      · simp [hnx, fun h : (node, o) = (x, y) => hnx (congrArg Prod.fst h)]

theorem count_inner (d : List (Category × List String)) (K : Category)
    (node x y : String) :
    (d.flatMap fun okn =>
        if okn.1 ≠ K then okn.2.map (fun other => (node, other))
        else []).count (x, y) =
      if node = x then
        (d.map (fun okn => if okn.1 ≠ K then okn.2.count y else 0)).sum
      else 0 := by
  rw [List.count_flatMap]
  split
  · rename_i he
    subst he
    congr 1
    apply List.map_congr_left
    intro okn _
    simp only [Function.comp]
    split
    · rw [count_pair_map, if_pos rfl]
    · simp
  · rename_i he
    apply List.sum_eq_zero
    intro v hv
    rcases List.mem_map.mp hv with ⟨okn, _, hvv⟩
    rw [← hvv]
    simp only [Function.comp]
    split
    · rw [count_pair_map, if_neg he]
    · simp

theorem count_tokens (d : List (Category × List String)) (K : Category)
    (core x y : String) (hx : x ≠ core) (ks : List String) :
    (ks.flatMap fun node =>
        (core, node) :: d.flatMap fun okn =>
          if okn.1 ≠ K then okn.2.map (fun other => (node, other))
          else []).count (x, y) =
      ks.count x *
        (d.map (fun okn => if okn.1 ≠ K then okn.2.count y else 0)).sum := by
  induction ks with
  | nil => simp
  | cons node ks ih =>
      rw [List.flatMap_cons, List.count_append, ih, List.count_cons,
        List.count_cons]
      have hcx : (((core, node) : String × String) == (x, y)) = false := by
        rw [beq_eq_false_iff_ne]
        intro hco
        exact hx (congrArg Prod.fst hco).symm
      rw [hcx, if_neg (by simp), Nat.add_zero, count_inner]
      by_cases hnx : node = x
      · subst hnx
        rw [if_pos rfl, if_pos (by simp)]
        ring
      · rw [if_neg hnx, if_neg (by simpa using hnx)]
        ring

theorem count_row_edges_aux (core x y : String) (hx : x ≠ core)
    (d : List (Category × List String)) :
    ∀ d' : List (Category × List String),
      (d'.flatMap fun kn =>
          kn.2.flatMap fun node =>
            (core, node) :: d.flatMap fun okn =>
              if okn.1 ≠ kn.1 then okn.2.map (fun other => (node, other))
              else []).count (x, y) =
      (d'.map (fun kn => kn.2.count x *
        (d.map (fun okn => if okn.1 ≠ kn.1 then okn.2.count y else 0)).sum)).sum := by
  intro d'
  induction d' with
  | nil => simp
  | cons kn d' ih =>
      rw [List.flatMap_cons, List.count_append, ih, List.map_cons,
        List.sum_cons]
      congr 1
      exact count_tokens d kn.1 core x y hx kn.2

theorem count_row_edges (core x y : String) (hx : x ≠ core)
    (d : List (Category × List String)) :
    (row_edges core d).count (x, y) =
      (d.map (fun kn => kn.2.count x *
        (d.map (fun okn => if okn.1 ≠ kn.1 then okn.2.count y else 0)).sum)).sum := by
  unfold row_edges
  exact count_row_edges_aux core x y hx d d

theorem count_row_edges_single (core x y : String)
    (d : List (Category × List String)) (X Y : Category)
    (xs ys : List String)
    (hnd : (d.map Prod.fst).Nodup)
    (hX : (X, xs) ∈ d) (hY : (Y, ys) ∈ d) (hXY : X ≠ Y)
    (hx1 : xs.count x = 1) (hy1 : ys.count y = 1)
    (hxonly : ∀ p ∈ d, p.1 ≠ X → x ∉ p.2)
    (hyonly : ∀ p ∈ d, p.1 ≠ Y → y ∉ p.2)
    (hxc : x ≠ core) :
    (row_edges core d).count (x, y) = 1 := by
  rw [count_row_edges core x y hxc d]
  have hkey : ∀ p ∈ d, ∀ q ∈ d, p.1 = q.1 → p = q := by
    intro p hp q hq hpq
    exact List.inj_on_of_nodup_map hnd hp hq hpq
  have hS : (d.map (fun okn => if okn.1 ≠ X then okn.2.count y else 0)).sum = 1 := by
    rw [sum_map_single d (List.Nodup.of_map _ hnd) (Y, ys) hY _ ?_]
    · rw [if_pos (by simpa using fun h => hXY h.symm)]
      exact hy1
    · intro p hp hpne
      by_cases hpY : p.1 = Y
      · exact absurd (hkey p hp (Y, ys) hY hpY) hpne
      · have : y ∉ p.2 := hyonly p hp hpY
        split
        · rwa [List.count_eq_zero]
        · rfl
  rw [sum_map_single d (List.Nodup.of_map _ hnd) (X, xs) hX _ ?_]
  · rw [hx1, hS]
  · intro p hp hpne
    by_cases hpX : p.1 = X
    · exact absurd (hkey p hp (X, xs) hX hpX) hpne
    · have : x ∉ p.2 := hxonly p hp hpX
      rw [List.count_eq_zero.mpr this, Nat.zero_mul]

/-- C10: within one row, an unordered pair of values drawn from two different
non-measure categories — each value occurring exactly once, in exactly one
category list, and distinct from the measure value — produces exactly two edge
insertions in the row's emitted edge list, one in each direction. -/
theorem C10_bidirectional_pair (core a b : String)
    (d : List (Category × List String)) (A B : Category)
    (as bs : List String)
    (hnd : (d.map Prod.fst).Nodup)
    (hA : (A, as) ∈ d) (hB : (B, bs) ∈ d) (hAB : A ≠ B)
    (ha1 : as.count a = 1) (hb1 : bs.count b = 1)
    (haonly : ∀ p ∈ d, p.1 ≠ A → a ∉ p.2)
    (hbonly : ∀ p ∈ d, p.1 ≠ B → b ∉ p.2)
    (hac : a ≠ core) (hbc : b ≠ core) :
    (row_edges core d).count (a, b) = 1 ∧ (row_edges core d).count (b, a) = 1 :=
  ⟨count_row_edges_single core a b d A B as bs hnd hA hB hAB ha1 hb1
      haonly hbonly hac,
    count_row_edges_single core b a d B A bs as hnd hB hA (fun h => hAB h.symm)
      hb1 ha1 hbonly haonly hbc⟩

theorem C10_bidirectional_pair_witness :
    (dictW10.map Prod.fst).Nodup ∧
    (row_edges "M" dictW10).count ("D", "Q") = 1 ∧
    (row_edges "M" dictW10).count ("Q", "D") = 1 := by
  have h := C10_bidirectional_pair "M" "D" "Q" dictW10 .Domain .Questionnaire
    ["D"] ["Q"] (by decide) (by decide) (by decide) (by decide) (by decide)
    (by decide) (by decide) (by decide) (by decide) (by decide)
  exact ⟨by decide, h.1, h.2⟩

/-! ### The tokenisation round-trip -/

theorem splitOnComma_ne_nil : ∀ l : List Char, splitOnComma l ≠ [] := by
  intro l
  cases l with
  | nil => simp [splitOnComma]
  | cons c cs =>
      simp only [splitOnComma]
      split
      · simp
      · split
        · simp
        · simp

theorem no_comma_of_mem_splitOnComma :
    ∀ (l t : List Char), t ∈ splitOnComma l → ',' ∉ t := by
  intro l
  induction l with
  | nil =>
      intro t ht
      simp [splitOnComma] at ht
      subst ht
      simp
  | cons c cs ih =>
      intro t ht
      by_cases hc : c = ','
      · subst hc
        rw [show splitOnComma (',' :: cs) = [] :: splitOnComma cs from by
          simp [splitOnComma]] at ht
        rcases List.mem_cons.mp ht with h | h
        · subst h
          simp
        · exact ih t h
      · cases hsp : splitOnComma cs with
        | nil => exact absurd hsp (splitOnComma_ne_nil cs)
        | cons t0 ts =>
            have hstep : splitOnComma (c :: cs) = (c :: t0) :: ts := by
              simp [splitOnComma, hc, hsp]
            rw [hstep] at ht
            have ht0 : t0 ∈ splitOnComma cs := by
              rw [hsp]
              exact List.mem_cons_self _ _
            rcases List.mem_cons.mp ht with h | h
            · subst h
              intro hmem
              rcases List.mem_cons.mp hmem with h1 | h1
              · exact hc h1.symm
              · exact ih t0 ht0 h1
            · have htm : t ∈ splitOnComma cs := by
                rw [hsp]
                exact List.mem_cons_of_mem t0 h
              exact ih t htm

theorem splitOnComma_of_no_comma :
    ∀ t : List Char, ',' ∉ t → splitOnComma t = [t] := by
  intro t
  induction t with
  | nil => intro; rfl
  | cons c cs ih =>
      intro h
      have hc : ¬c = ',' := by
        intro he
        apply h
        rw [he]
        exact List.mem_cons_self _ _
      have hcs := ih (fun hm => h (List.mem_cons_of_mem c hm))
      simp [splitOnComma, hc, hcs]

theorem splitOnComma_append_comma : ∀ (t r : List Char), ',' ∉ t →
    splitOnComma (t ++ ',' :: r) = t :: splitOnComma r := by
  intro t
  induction t with
  | nil =>
      intro r _
      simp [splitOnComma]
  | cons c cs ih =>
      intro r h
      have hc : ¬c = ',' := by
        intro he
        apply h
        rw [he]
        exact List.mem_cons_self _ _
      have hcs := ih r (fun hm => h (List.mem_cons_of_mem c hm))
      simp [splitOnComma, hc, hcs]

theorem mem_of_mem_stripChars {x : Char} :
    ∀ t : List Char, x ∈ stripChars t → x ∈ t := by
  intro t hx
  unfold stripChars at hx
  rw [List.mem_reverse] at hx
  have h1 := (List.dropWhile_sublist _).subset hx
  rw [List.mem_reverse] at h1
  exact (List.dropWhile_sublist _).subset h1

theorem dropWhile_twice {α : Type} (p : α → Bool) : ∀ l : List α,
    (l.dropWhile p).dropWhile p = l.dropWhile p := by
  intro l
  induction l with
  | nil => rfl
  | cons c cs ih =>
      by_cases hc : p c
      · rw [List.dropWhile_cons_of_pos hc]
        exact ih
      · rw [List.dropWhile_cons_of_neg hc, List.dropWhile_cons_of_neg hc]

theorem not_head_of_dropWhile_self {α : Type} (p : α → Bool) (c : α)
    (t : List α) (h : (c :: t).dropWhile p = c :: t) : ¬p c = true := by
  intro hc
  rw [List.dropWhile_cons_of_pos hc] at h
  have hlen := congrArg List.length h
  have hle := (List.dropWhile_sublist (l := t) p).length_le
  simp only [List.length_cons] at hlen
  omega

theorem dropWhile_stripChars (l : List Char) :
    (stripChars l).dropWhile Char.isWhitespace = stripChars l := by
  have hu : (l.dropWhile Char.isWhitespace).dropWhile Char.isWhitespace =
      l.dropWhile Char.isWhitespace := dropWhile_twice _ l
  have hpre :
      (((l.dropWhile Char.isWhitespace).reverse.dropWhile Char.isWhitespace).reverse)
        <+: l.dropWhile Char.isWhitespace := by
    have hsuf := List.dropWhile_suffix
      (l := (l.dropWhile Char.isWhitespace).reverse) Char.isWhitespace
    have h2 := hsuf.reverse
    rwa [List.reverse_reverse] at h2
  obtain ⟨w, hw⟩ := hpre
  show (((l.dropWhile Char.isWhitespace).reverse.dropWhile
      Char.isWhitespace).reverse).dropWhile Char.isWhitespace = _
  cases hv : ((l.dropWhile Char.isWhitespace).reverse.dropWhile
      Char.isWhitespace).reverse with
  | nil =>
      unfold stripChars
      rw [hv]
      rfl
  | cons c z =>
      rw [hv] at hw
      have hcz : l.dropWhile Char.isWhitespace = c :: (z ++ w) := by
        rw [← hw]
        rfl
      rw [hcz] at hu
      have hnc := not_head_of_dropWhile_self Char.isWhitespace c (z ++ w) hu
      unfold stripChars
      rw [hv, List.dropWhile_cons_of_neg hnc]

theorem stripChars_idem (l : List Char) :
    stripChars (stripChars l) = stripChars l := by
  show ((((stripChars l).dropWhile Char.isWhitespace).reverse.dropWhile
      Char.isWhitespace)).reverse = stripChars l
  rw [dropWhile_stripChars l]
  rw [show (stripChars l).reverse =
      (l.dropWhile Char.isWhitespace).reverse.dropWhile Char.isWhitespace from by
    unfold stripChars
    rw [List.reverse_reverse]]
  rw [dropWhile_twice]
  rfl

theorem stripChars_cons_space (t : List Char) :
    stripChars (' ' :: t) = stripChars t := by
  unfold stripChars
  rw [List.dropWhile_cons_of_pos (by decide)]

theorem map_stripChars_splitOnComma_space (x : List Char) :
    (splitOnComma (' ' :: x)).map stripChars =
      (splitOnComma x).map stripChars := by
  cases h : splitOnComma x with
  | nil => exact absurd h (splitOnComma_ne_nil x)
  | cons t0 ts =>
      have hstep : splitOnComma (' ' :: x) = (' ' :: t0) :: ts := by
        simp [splitOnComma, h]
      rw [hstep, List.map_cons, List.map_cons, stripChars_cons_space]

theorem map_strip_split_join : ∀ ts : List (List Char), ts ≠ [] →
    (∀ t ∈ ts, ',' ∉ t) →
    (splitOnComma (joinCommaChars ts)).map stripChars = ts.map stripChars := by
  intro ts
  induction ts with
  | nil => intro h; exact absurd rfl h
  | cons t ts ih =>
      intro _ hnc
      cases ts with
      | nil =>
          rw [show joinCommaChars [t] = t from rfl,
            splitOnComma_of_no_comma t (hnc t (List.mem_cons_self _ _))]
      | cons t2 rest =>
          have hj : joinCommaChars (t :: t2 :: rest) =
              t ++ ',' :: ' ' :: joinCommaChars (t2 :: rest) := rfl
          rw [hj, splitOnComma_append_comma t _ (hnc t (List.mem_cons_self _ _)),
            List.map_cons, map_stripChars_splitOnComma_space,
            ih (by simp) (fun u hu => hnc u (List.mem_cons_of_mem _ hu))]
          simp

theorem string_data_mk (l : List Char) : (String.mk l).data = l := rfl

/-- C8: splitting a comma-packed field on commas, stripping each token, and
rejoining with ", " reproduces the original field up to whitespace stripping
around each token — the rejoined string and the original have identical
stripped token lists. -/
theorem C8_split_strip_join_round_trip (s : String) :
    (pySplit (pyJoinComma ((pySplit s).map pyStrip))).map pyStrip =
      (pySplit s).map pyStrip := by
  have hchar :
      (splitOnComma (joinCommaChars
        ((splitOnComma s.data).map stripChars))).map stripChars =
      (splitOnComma s.data).map stripChars := by
    rw [map_strip_split_join ((splitOnComma s.data).map stripChars)
      (by simp [splitOnComma_ne_nil])
      (by
        intro t ht
        rcases List.mem_map.mp ht with ⟨u, hu, huv⟩
        rw [← huv]
        intro hc
        exact no_comma_of_mem_splitOnComma s.data u hu
          (mem_of_mem_stripChars u hc)),
      List.map_map]
    apply List.map_congr_left
    intro u _
    exact stripChars_idem u
  simp only [pySplit, pyStrip, pyJoinComma, List.map_map, string_data_mk]
  rw [show (pyStrip ∘ String.mk) = (String.mk ∘ stripChars) from
      funext (fun l => rfl),
    show (String.data ∘ String.mk ∘ stripChars) = stripChars from
      funext (fun l => rfl),
    ← List.map_map, ← List.map_map, hchar]
